import Mathlib

/-!
Verification of `GenerativeBrainModel/custom_functions/utils.py`.

Tensors are modelled per batch row as `List ℝ`; Python floats are modelled as
real numbers.  A Python call that raises (e.g. `0 ** (-0.5)`, a ZeroDivisionError)
is modelled as `Option.none`.
-/

/-! ## Straight-through multinomial sampler (`STsampleMultiNom`) -/

/-- Modelled from the spec: `torch.multinomial(input, 1)` is a library
primitive absent from the repository.  It draws one index per row with
probability proportional to the row's weights; for a row of non-negative
weights with positive sum, exactly the indices carrying strictly positive
weight can be drawn.  We model the draw by quantifying over an index `j`
satisfying this predicate. -/
def multinomialDraw (input : List ℝ) (j : ℕ) : Prop :=
  j < input.length ∧ 0 < input.getD j 0

/-- `STsampleMultiNom.forward`: `one_hot = torch.zeros_like(input);
one_hot.scatter_(1, x, 1)` where `x` is the drawn index `j`. -/
def STsampleMultiNom.forward (input : List ℝ) (j : ℕ) : List ℝ :=
  (List.replicate input.length (0 : ℝ)).set j 1

/-- `STsampleMultiNom.backward`: `return grad_output, None`. -/
def STsampleMultiNom.backward (saved_input grad_output : List ℝ) :
    List ℝ × Option (List ℝ) :=
  (grad_output, none)

/-! ## symlog / symexp -/

/-- `symlog(x) = torch.sign(x) * torch.log(1 + torch.abs(x))`. -/
noncomputable def symlog (x : ℝ) : ℝ := Real.sign x * Real.log (1 + |x|)

/-- `symexp(x) = torch.sign(x) * (torch.exp(torch.abs(x)) - 1)`. -/
noncomputable def symexp (x : ℝ) : ℝ := Real.sign x * (Real.exp |x| - 1)

/-! ## KL divergence "with free bits" -/

/-- `tensor.mean()` over a flat list. -/
noncomputable def listMean (l : List ℝ) : ℝ := l.sum / l.length

/-- `kl_divergence_with_free_bits`: computes
`kld = q_probs * (torch.log(q_probs) - torch.log(p_probs))` and returns
`kld.mean()`; `batch_size` and `free_bits` appear in the signature only. -/
noncomputable def kl_divergence_with_free_bits (q_probs p_probs : List ℝ)
    (batch_size : ℕ) (free_bits : ℝ) : ℝ :=
  listMean (List.zipWith (fun q p => q * (Real.log q - Real.log p)) q_probs p_probs)

/-- Spec-side definition: the overall (unclipped) mean of the elementwise
product `q * (log q - log p)`. -/
noncomputable def unclippedKLMean (q_probs p_probs : List ℝ) : ℝ :=
  listMean (List.zipWith (fun q p => q * (Real.log q - Real.log p)) q_probs p_probs)

/-! ## RMSNorm -/

/-- `x.norm(2, dim=-1)`: the Euclidean norm of a row. -/
noncomputable def l2norm (x : List ℝ) : ℝ :=
  Real.sqrt ((x.map (fun a => a ^ 2)).sum)

/-- The `RMSNorm` module's configuration and parameters
(`d`, `p`, `eps`, `bias`, `scale`, `offset`). -/
structure RMSNorm where
  d : ℕ
  p : ℝ
  eps : ℝ
  bias : Bool
  scale : List ℝ
  offset : List ℝ

/-- `RMSNorm.forward` on one row.  Python evaluates `d_x ** (-1. / 2)` with
`d_x` a plain int; when `d_x = 0` this raises ZeroDivisionError, modelled as
`none`.  `int(self.d * self.p)` truncates; on the branch `0 ≤ p ≤ 1` the
product is non-negative, so truncation is the floor. -/
noncomputable def RMSNorm.forward (m : RMSNorm) (x : List ℝ) : Option (List ℝ) :=
  let nd : ℝ × ℕ :=
    if m.p < 0 ∨ 1 < m.p then
      (l2norm x, m.d)
    else
      ((l2norm (x.take (⌊(m.d : ℝ) * m.p⌋).toNat)), (⌊(m.d : ℝ) * m.p⌋).toNat)
  if nd.2 = 0 then none
  else
    let rms_x : ℝ := nd.1 * (nd.2 : ℝ) ^ (-(1 : ℝ) / 2)
    let x_normed : List ℝ := x.map (fun a => a / (rms_x + m.eps))
    some (if m.bias then
            List.zipWith (fun s y => s + y)
              (List.zipWith (fun s y => s * y) m.scale x_normed) m.offset
          else
            List.zipWith (fun s y => s * y) m.scale x_normed)

/-- Spec-side full-vector branch: norm of the whole last dimension divided by
`sqrt d`, the whole vector divided by `(rms + eps)`, scaled, with the offset
added only when bias is enabled. -/
noncomputable def rmsSpecFull (m : RMSNorm) (x : List ℝ) : List ℝ :=
  let rms : ℝ := l2norm x / Real.sqrt m.d
  let xn : List ℝ := x.map (fun a => a / (rms + m.eps))
  if m.bias then
    List.zipWith (fun s y => s + y) (List.zipWith (fun s y => s * y) m.scale xn) m.offset
  else
    List.zipWith (fun s y => s * y) m.scale xn

/-- Spec-side partial branch: norm of the prefix of size `⌊d * p⌋` divided by
the square root of the prefix size. -/
noncomputable def rmsSpecPart (m : RMSNorm) (x : List ℝ) : List ℝ :=
  let ps : ℕ := (⌊(m.d : ℝ) * m.p⌋).toNat
  let rms : ℝ := l2norm (x.take ps) / Real.sqrt ps
  let xn : List ℝ := x.map (fun a => a / (rms + m.eps))
  if m.bias then
    List.zipWith (fun s y => s + y) (List.zipWith (fun s y => s * y) m.scale xn) m.offset
  else
    List.zipWith (fun s y => s * y) m.scale xn

/-! ## Exponential binning (`logits_to_value`, `twohot_exp_loss`) -/

/-- Entry `i` of `torch.linspace(min_exp, max_exp, num_bins)`:
`num_bins` values evenly spaced from `min_exp` to `max_exp` inclusive. -/
noncomputable def linspaceVal (num_bins : ℕ) (min_exp max_exp : ℝ) (i : ℕ) : ℝ :=
  min_exp + i * (max_exp - min_exp) / ((num_bins : ℝ) - 1)

/-- `bins = 2.0 ** exponents`, entry `i`. -/
noncomputable def binVal (num_bins : ℕ) (min_exp max_exp : ℝ) (i : ℕ) : ℝ :=
  (2 : ℝ) ^ linspaceVal num_bins min_exp max_exp i

/-- The bins tensor as a list. -/
noncomputable def binsList (num_bins : ℕ) (min_exp max_exp : ℝ) : List ℝ :=
  List.ofFn (fun i : Fin num_bins => binVal num_bins min_exp max_exp i)

/-- `F.softmax(l, dim=1)` on one row (mathematical form). -/
noncomputable def softmax (l : List ℝ) : List ℝ :=
  l.map (fun a => Real.exp a / (l.map Real.exp).sum)

/-- `logits_to_value`: `torch.sum(softmax_probs * bins, dim=1)` on one row. -/
noncomputable def logits_to_value (predicted_logits : List ℝ) (num_bins : ℕ)
    (min_exp max_exp : ℝ) : ℝ :=
  (List.zipWith (fun p b => p * b) (softmax predicted_logits)
    (binsList num_bins min_exp max_exp)).sum

/-- Spec-side definition: the expected value under the softmax distribution,
`sum over bins of softmax(logits)[i] * bins[i]`, written as a `Finset` sum. -/
noncomputable def softmaxExpectation (l : List ℝ) (num_bins : ℕ)
    (min_exp max_exp : ℝ) : ℝ :=
  ∑ i ∈ Finset.range num_bins,
    (Real.exp (l.getD i 0) / ∑ j ∈ Finset.range num_bins, Real.exp (l.getD j 0)) *
      binVal num_bins min_exp max_exp i

/-- `k = torch.sum(exponents < log2_true, dim=1)` in `twohot_exp_loss`: the
number of bin exponents strictly less than `log2(v)`. -/
noncomputable def twohotCount (v : ℝ) (num_bins : ℕ) (min_exp max_exp : ℝ) : ℕ :=
  (@Finset.filter ℕ
    (fun i => linspaceVal num_bins min_exp max_exp i < Real.logb 2 v)
    (Classical.decPred _) (Finset.range num_bins)).card

/-- `k = torch.clamp(k, 0, num_bins - 2)`; the count is a natural number, so
only the upper clamp is active. -/
noncomputable def kIdx (v : ℝ) (num_bins : ℕ) (min_exp max_exp : ℝ) : ℕ :=
  min (twohotCount v num_bins min_exp max_exp) (num_bins - 2)

/-- `weight_upper = (true_values - lower_bin) / (upper_bin - lower_bin)` with
`lower_bin = bins[k]`, `upper_bin = bins[k + 1]`. -/
noncomputable def weight_upper (v : ℝ) (num_bins : ℕ) (min_exp max_exp : ℝ) : ℝ :=
  (v - binVal num_bins min_exp max_exp (kIdx v num_bins min_exp max_exp)) /
    (binVal num_bins min_exp max_exp (kIdx v num_bins min_exp max_exp + 1) -
      binVal num_bins min_exp max_exp (kIdx v num_bins min_exp max_exp))

/-- `weight_lower = 1 - weight_upper`. -/
noncomputable def weight_lower (v : ℝ) (num_bins : ℕ) (min_exp max_exp : ℝ) : ℝ :=
  1 - weight_upper v num_bins min_exp max_exp

/-- The two-hot target row built by `twohot_exp_loss`:
`twohot = torch.zeros_like(predicted_logits)` followed by
`twohot.scatter_(1, k, weight_lower)` and
`twohot.scatter_(1, k + 1, weight_upper)`. -/
noncomputable def twohot (v : ℝ) (num_bins : ℕ) (min_exp max_exp : ℝ) : List ℝ :=
  ((List.replicate num_bins (0 : ℝ)).set (kIdx v num_bins min_exp max_exp)
      (weight_lower v num_bins min_exp max_exp)).set
    (kIdx v num_bins min_exp max_exp + 1) (weight_upper v num_bins min_exp max_exp)

/-- Spec-side definition: a vector of length `num_bins` with `weight_lower`
at index `k`, `weight_upper` at index `k + 1`, and zero at every other
index. -/
noncomputable def twohotSpecVec (v : ℝ) (num_bins : ℕ) (min_exp max_exp : ℝ) :
    List ℝ :=
  List.ofFn (fun i : Fin num_bins =>
    if i.1 = kIdx v num_bins min_exp max_exp then
      weight_lower v num_bins min_exp max_exp
    else if i.1 = kIdx v num_bins min_exp max_exp + 1 then
      weight_upper v num_bins min_exp max_exp
    else 0)

/-! ## least_power_of_2 -/

/-- `least_power_of_2`: returns 1 for `value <= 0`, otherwise
`2 ** math.ceil(math.log(value, 2))` (an integer power, possibly negative). -/
noncomputable def least_power_of_2 (value : ℝ) : ℝ :=
  if value ≤ 0 then 1 else (2 : ℝ) ^ (⌈Real.logb 2 value⌉ : ℤ)

/-! ## Theorems -/

/-- Claim C2: the straight-through backward pass returns the incoming output
gradient unchanged as the gradient with respect to the input probabilities
(and `None` for the spurious second slot): the sampling step is differentiated
as the identity function. -/
theorem C2_straight_through_backward (saved_input grad_output : List ℝ) :
    STsampleMultiNom.backward saved_input grad_output = (grad_output, none) :=
  rfl

/-- Claim C8: for a valid probability row (non-negative entries, positive sum)
and any index the multinomial sampler can draw, the forward pass returns a
row of the same length that is one-hot: entry 1 at the drawn index, 0 at every
other index, and the drawn index has strictly positive weight in the input. -/
theorem C8_forward_one_hot (input : List ℝ) (j : ℕ)
    (hnn : ∀ a ∈ input, 0 ≤ a) (hsum : 0 < input.sum)
    (hdraw : multinomialDraw input j) :
    (STsampleMultiNom.forward input j).length = input.length ∧
    (STsampleMultiNom.forward input j).getD j 0 = 1 ∧
    (∀ i, i < input.length → i ≠ j →
      (STsampleMultiNom.forward input j).getD i 0 = 0) ∧
    0 < input.getD j 0 := by
  obtain ⟨hj, hpos⟩ := hdraw
  unfold STsampleMultiNom.forward
  refine ⟨by simp, ?_, ?_, hpos⟩
  · rw [List.getD_eq_getElem _ _ (by simpa using hj)]
    simp [List.getElem_set, hj]
  · intro i hi hne
    rw [List.getD_eq_getElem _ _ (by simpa using hi)]
    simp [List.getElem_set, (Ne.symm hne)]

/-- Witness for C8 at the concrete row `[1/2, 1/2]`, drawn index 0. -/
theorem C8_forward_one_hot_witness :
    (STsampleMultiNom.forward [(1:ℝ)/2, 1/2] 0).length = ([(1:ℝ)/2, 1/2] : List ℝ).length ∧
    (STsampleMultiNom.forward [(1:ℝ)/2, 1/2] 0).getD 0 0 = 1 ∧
    (∀ i, i < ([(1:ℝ)/2, 1/2] : List ℝ).length → i ≠ 0 →
      (STsampleMultiNom.forward [(1:ℝ)/2, 1/2] 0).getD i 0 = 0) ∧
    0 < ([(1:ℝ)/2, 1/2] : List ℝ).getD 0 0 :=
  C8_forward_one_hot [(1:ℝ)/2, 1/2] 0
    (by intro a ha; fin_cases ha <;> norm_num)
    (by norm_num)
    (by constructor <;> norm_num [List.getD])

/-- Claim C3: `symlog` and `symexp` are exact mutual inverses on the reals:
`symexp (symlog x) = x` for every `x`; moreover `sign (symlog x) = sign x`
and `symlog 0 = 0`. -/
theorem C3_symlog_symexp_inverse (x : ℝ) :
    symexp (symlog x) = x ∧ Real.sign (symlog x) = Real.sign x ∧
    symlog (0 : ℝ) = 0 := by
  have h0 : symlog (0 : ℝ) = 0 := by
    simp [symlog, Real.sign_zero]
  rcases lt_trichotomy x 0 with hx | hx | hx
  · have habs : |x| = -x := abs_of_neg hx
    have hlog : symlog x = -Real.log (1 - x) := by
      simp [symlog, Real.sign_of_neg hx, habs]
      ring_nf
    have hpos : 0 < Real.log (1 - x) := Real.log_pos (by linarith)
    have hneg : symlog x < 0 := by rw [hlog]; linarith
    constructor
    · rw [symexp, Real.sign_of_neg hneg, abs_of_neg hneg, hlog, neg_neg,
        Real.exp_log (by linarith : (0:ℝ) < 1 - x)]
      ring
    · rw [Real.sign_of_neg hneg, Real.sign_of_neg hx]
      exact ⟨rfl, h0⟩
  · subst hx
    rw [h0]
    refine ⟨?_, rfl, rfl⟩
    simp [symexp, Real.sign_zero]
  · have habs : |x| = x := abs_of_pos hx
    have hlog : symlog x = Real.log (1 + x) := by
      simp [symlog, Real.sign_of_pos hx, habs]
    have hpos : 0 < Real.log (1 + x) := Real.log_pos (by linarith)
    have hsl : 0 < symlog x := by rw [hlog]; exact hpos
    constructor
    · rw [symexp, Real.sign_of_pos hsl, abs_of_pos hsl, hlog,
        Real.exp_log (by linarith : (0:ℝ) < 1 + x)]
      ring
    · rw [Real.sign_of_pos hsl, Real.sign_of_pos hx]
      exact ⟨rfl, h0⟩

/-- Claim C4: `kl_divergence_with_free_bits` returns the overall mean of the
elementwise `q * (log q - log p)`; the result is independent of both the
`batch_size` and the `free_bits` arguments (no clipping, no batch division). -/
theorem C4_kl_free_bits_unused (q_probs p_probs : List ℝ)
    (batch_size : ℕ) (free_bits : ℝ) :
    kl_divergence_with_free_bits q_probs p_probs batch_size free_bits =
      unclippedKLMean q_probs p_probs ∧
    ∀ (batch_size2 : ℕ) (free_bits2 : ℝ),
      kl_divergence_with_free_bits q_probs p_probs batch_size free_bits =
        kl_divergence_with_free_bits q_probs p_probs batch_size2 free_bits2 :=
  ⟨rfl, fun _ _ => rfl⟩

lemma natCast_rpow_neg_half (n : ℕ) : ((n : ℝ)) ^ (-(1 : ℝ) / 2) = 1 / Real.sqrt n := by
  rcases Nat.eq_zero_or_pos n with h | h
  · subst h
    rw [Nat.cast_zero, Real.zero_rpow (by norm_num), Real.sqrt_zero]
    norm_num
  · have hn : (0 : ℝ) ≤ (n : ℝ) := by positivity
    rw [show (-(1 : ℝ) / 2) = -(1 / 2) by ring, Real.rpow_neg hn,
      ← Real.sqrt_eq_rpow, one_div]

lemma rmsnorm_forward_full (m : RMSNorm) (x : List ℝ)
    (hp : m.p < 0 ∨ 1 < m.p) (hd : m.d ≠ 0) :
    m.forward x = some (rmsSpecFull m x) := by
  simp only [RMSNorm.forward, rmsSpecFull]
  rw [if_pos hp]
  simp only [hd, if_false, natCast_rpow_neg_half, mul_one_div]

lemma rmsnorm_forward_part (m : RMSNorm) (x : List ℝ)
    (hp : ¬(m.p < 0 ∨ 1 < m.p)) (hd : (⌊(m.d : ℝ) * m.p⌋).toNat ≠ 0) :
    m.forward x = some (rmsSpecPart m x) := by
  simp only [RMSNorm.forward, rmsSpecPart]
  rw [if_neg hp]
  simp only [hd, if_false, natCast_rpow_neg_half, mul_one_div]

/-- Claim C5: the forward pass takes the full-vector branch when `p` is
outside `[0,1]` (norm over the whole last dimension, divided by `sqrt d`) and
the partial branch otherwise (norm over the prefix of size `⌊d*p⌋`, divided
by the square root of that size); it then divides the whole input by
`rms + eps`, multiplies by the learned scale, adding the offset only when
bias is on; concretely, with `p` disabled, `d = 4`, `eps = 0`, unit scale and
no bias, input `[3,0,0,0]` maps to `[2,0,0,0]`. -/
theorem C5_rmsnorm_forward (m : RMSNorm) (x : List ℝ) :
    ((m.p < 0 ∨ 1 < m.p) → m.d ≠ 0 → m.forward x = some (rmsSpecFull m x)) ∧
    ((0 ≤ m.p ∧ m.p ≤ 1) → (⌊(m.d : ℝ) * m.p⌋).toNat ≠ 0 →
      m.forward x = some (rmsSpecPart m x)) ∧
    (RMSNorm.mk 4 (-1) 0 false [1, 1, 1, 1] []).forward [3, 0, 0, 0] =
      some [2, 0, 0, 0] := by
  refine ⟨fun hp hd => rmsnorm_forward_full m x hp hd,
    fun hp hd => rmsnorm_forward_part m x (by push_neg; constructor <;> linarith [hp.1, hp.2]) hd,
    ?_⟩
  rw [rmsnorm_forward_full _ _ (Or.inl (by norm_num)) (by norm_num)]
  have h9 : l2norm [3, 0, 0, 0] = 3 := by
    have : ((([3, 0, 0, 0] : List ℝ).map (fun a => a ^ 2)).sum) = 9 := by
      norm_num
    rw [l2norm, this, show (9 : ℝ) = 3 ^ 2 by norm_num,
      Real.sqrt_sq (by norm_num : (0 : ℝ) ≤ 3)]
  simp only [rmsSpecFull, h9]
  norm_num
  rw [show (4 : ℝ) = 2 ^ 2 by norm_num, Real.sqrt_sq (by norm_num : (0 : ℝ) ≤ 2)]

/-- Witness for C5: the full-vector branch applied at the concrete
configuration `d = 4`, `p = -1`, `eps = 0`, no bias, unit scale, on input
`[3,0,0,0]`. -/
theorem C5_rmsnorm_forward_witness :
    (RMSNorm.mk 4 (-1) 0 false [1, 1, 1, 1] []).forward [3, 0, 0, 0] =
      some (rmsSpecFull (RMSNorm.mk 4 (-1) 0 false [1, 1, 1, 1] []) [3, 0, 0, 0]) :=
  (C5_rmsnorm_forward (RMSNorm.mk 4 (-1) 0 false [1, 1, 1, 1] []) [3, 0, 0, 0]).1
    (Or.inl (by norm_num)) (by norm_num)

/-- Counterexample for claim C10: with `p = 0` the forward call produces no
output value at all (the Python computation `0 ** (-1/2)` raises
ZeroDivisionError, modelled as `none`), so at the concrete configuration
`d = 4`, `eps = 1e-8` and input `[3,0,0,0]` there is no (NaN or otherwise)
output tensor. -/
theorem C10_counterexample_no_output :
    (RMSNorm.mk 4 0 (1 / 100000000) false [1, 1, 1, 1] []).forward [3, 0, 0, 0] =
      none := by
  norm_num [RMSNorm.forward]

/-- Claim C10 (amended): constructing RMSNorm with `p = 0` — inside `[0,1]`,
hence partial mode — makes the partial branch compute a prefix size of
`int(d * 0) = 0`, and evaluating `0 ** (-1/2)` fails (Python raises
ZeroDivisionError): the forward pass returns no output for every input,
rather than a NaN-valued tensor. -/
theorem C10_p_zero_forward_fails (d : ℕ) (eps : ℝ) (b : Bool)
    (scale offset x : List ℝ) :
    (RMSNorm.mk d 0 eps b scale offset).forward x = none := by
  norm_num [RMSNorm.forward]

lemma two_rpow_intCast_eq (m : ℤ) : (2 : ℝ) ^ ((m : ℤ) : ℝ) = (2 : ℝ) ^ m :=
  Real.rpow_intCast 2 m

lemma least_power_of_2_pos_eq (v : ℝ) (hv : 0 < v) :
    least_power_of_2 v = (2 : ℝ) ^ (⌈Real.logb 2 v⌉ : ℤ) := by
  unfold least_power_of_2
  rw [if_neg (not_le.mpr hv)]

/-- Claim C9: `least_power_of_2 v` is the smallest integer power of two that
is at least `v` for every positive `v`, returns 1 for `v ≤ 0`, and takes the
values 1, 8, 1, 8 at inputs 1, 5, 0, 8 respectively. -/
theorem C9_least_power_of_2 :
    (∀ v : ℝ, 0 < v →
      v ≤ least_power_of_2 v ∧
      (∃ m : ℤ, least_power_of_2 v = (2 : ℝ) ^ m) ∧
      (∀ m : ℤ, v ≤ (2 : ℝ) ^ m → least_power_of_2 v ≤ (2 : ℝ) ^ m)) ∧
    (∀ v : ℝ, v ≤ 0 → least_power_of_2 v = 1) ∧
    least_power_of_2 1 = 1 ∧ least_power_of_2 5 = 8 ∧
    least_power_of_2 0 = 1 ∧ least_power_of_2 8 = 8 := by
  have h2 : (1 : ℝ) < 2 := one_lt_two
  refine ⟨?_, ?_, ?_, ?_, ?_, ?_⟩
  · intro v hv
    rw [least_power_of_2_pos_eq v hv]
    refine ⟨?_, ⟨_, rfl⟩, ?_⟩
    · rw [← two_rpow_intCast_eq]
      have hle : Real.logb 2 v ≤ (⌈Real.logb 2 v⌉ : ℝ) := Int.le_ceil _
      calc v = (2 : ℝ) ^ Real.logb 2 v :=
              (Real.rpow_logb (by norm_num) (by norm_num) hv).symm
        _ ≤ (2 : ℝ) ^ ((⌈Real.logb 2 v⌉ : ℤ) : ℝ) :=
              (Real.rpow_le_rpow_left_iff h2).mpr hle
    · intro m hm
      rw [← two_rpow_intCast_eq, ← two_rpow_intCast_eq]
      have hlog : Real.logb 2 v ≤ (m : ℝ) := by
        rw [Real.logb_le_iff_le_rpow h2 hv, two_rpow_intCast_eq]
        exact hm
      have hceil : (⌈Real.logb 2 v⌉ : ℤ) ≤ m := Int.ceil_le.mpr hlog
      exact (Real.rpow_le_rpow_left_iff h2).mpr (by exact_mod_cast hceil)
  · intro v hv
    unfold least_power_of_2
    rw [if_pos hv]
  · rw [least_power_of_2_pos_eq 1 one_pos, Real.logb_one]
    norm_num
  · rw [least_power_of_2_pos_eq 5 (by norm_num)]
    have hceil : ⌈Real.logb 2 5⌉ = 3 := by
      rw [Int.ceil_eq_iff]
      constructor
      · rw [show ((3 : ℤ) : ℝ) - 1 = ((2 : ℕ) : ℝ) by norm_num]
        rw [Real.lt_logb_iff_rpow_lt h2 (by norm_num), Real.rpow_natCast]
        norm_num
      · rw [show ((3 : ℤ) : ℝ) = ((3 : ℕ) : ℝ) by norm_num]
        rw [Real.logb_le_iff_le_rpow h2 (by norm_num), Real.rpow_natCast]
        norm_num
    rw [hceil]
    norm_num
  · unfold least_power_of_2
    rw [if_pos (le_refl 0)]
  · rw [least_power_of_2_pos_eq 8 (by norm_num)]
    have hlog : Real.logb 2 8 = 3 := by
      rw [show (8 : ℝ) = (2 : ℝ) ^ ((3 : ℕ) : ℝ) by rw [Real.rpow_natCast]; norm_num]
      exact Real.logb_rpow (by norm_num) (by norm_num)
    rw [hlog, show ⌈(3 : ℝ)⌉ = 3 by norm_num]
    norm_num

/-- Witness for C9: the universally quantified minimality part applied at the
concrete input 5 with upper bound exponent 3. -/
theorem C9_least_power_of_2_witness :
    (5 : ℝ) ≤ least_power_of_2 5 ∧ least_power_of_2 5 ≤ (2 : ℝ) ^ (3 : ℤ) :=
  ⟨(C9_least_power_of_2.1 5 (by norm_num)).1,
   (C9_least_power_of_2.1 5 (by norm_num)).2.2 3 (by norm_num)⟩

lemma sum_map_eq_finsetSum (f : ℝ → ℝ) (l : List ℝ) :
    (l.map f).sum = ∑ i ∈ Finset.range l.length, f (l.getD i 0) := by
  induction l with
  | nil => simp
  | cons a t ih =>
      rw [List.map_cons, List.sum_cons, ih, List.length_cons,
        Finset.sum_range_succ']
      simp only [List.getD_cons_succ, List.getD_cons_zero]
      exact add_comm _ _

lemma sum_zipWith_eq_finsetSum (f : ℝ → ℝ → ℝ) :
    ∀ (a b : List ℝ), b.length = a.length →
      (List.zipWith f a b).sum =
        ∑ i ∈ Finset.range a.length, f (a.getD i 0) (b.getD i 0) := by
  intro a
  induction a with
  | nil => intro b _; simp
  | cons x t ih =>
      intro b hb
      cases b with
      | nil => simp at hb
      | cons y s =>
          simp only [List.length_cons, Nat.succ_inj] at hb
          rw [List.zipWith_cons_cons, List.sum_cons, ih s hb, List.length_cons,
            Finset.sum_range_succ']
          simp only [List.getD_cons_succ, List.getD_cons_zero]
          exact add_comm _ _

lemma getD_map_of_lt (g : ℝ → ℝ) (l : List ℝ) (i : ℕ) (h : i < l.length) :
    (l.map g).getD i 0 = g (l.getD i 0) := by
  rw [List.getD_eq_getElem _ _ (by simpa using h), List.getD_eq_getElem _ _ h,
    List.getElem_map]

lemma getD_ofFn_of_lt (n : ℕ) (f : ℕ → ℝ) (i : ℕ) (h : i < n) :
    (List.ofFn (fun k : Fin n => f k.1)).getD i 0 = f i := by
  rw [List.getD_eq_getElem _ _ (by simpa using h)]
  simp

lemma linspaceVal_lt_of_lt (n : ℕ) (me mx : ℝ) (hn : 2 ≤ n) (hme : me < mx)
    (i j : ℕ) (hij : i < j) :
    linspaceVal n me mx i < linspaceVal n me mx j := by
  have hn1 : (0 : ℝ) < (n : ℝ) - 1 := by
    have : (2 : ℝ) ≤ (n : ℝ) := by exact_mod_cast hn
    linarith
  have hs : 0 < (mx - me) / ((n : ℝ) - 1) := div_pos (by linarith) hn1
  have hcast : (i : ℝ) < (j : ℝ) := by exact_mod_cast hij
  simp only [linspaceVal]
  rw [mul_div_assoc, mul_div_assoc]
  have := mul_lt_mul_of_pos_right hcast hs
  linarith

/-- Claim C6: `logits_to_value` returns the expected value of the bin values
under the softmax of the logits, where `bins[i] = 2^exponents[i]` and the
exponents are `num_bins` values evenly spaced from `min_exp` (at index 0) to
`max_exp` (at index `num_bins - 1`) inclusive, strictly ascending. -/
theorem C6_logits_to_value_expectation (l : List ℝ) (num_bins : ℕ)
    (min_exp max_exp : ℝ) (hlen : l.length = num_bins) (hn : 2 ≤ num_bins)
    (hme : min_exp < max_exp) :
    logits_to_value l num_bins min_exp max_exp =
      softmaxExpectation l num_bins min_exp max_exp ∧
    linspaceVal num_bins min_exp max_exp 0 = min_exp ∧
    linspaceVal num_bins min_exp max_exp (num_bins - 1) = max_exp ∧
    (∀ i j, i < j → j < num_bins →
      linspaceVal num_bins min_exp max_exp i <
        linspaceVal num_bins min_exp max_exp j) := by
  have hn1 : ((num_bins : ℝ) - 1) ≠ 0 := by
    have : (2 : ℝ) ≤ (num_bins : ℝ) := by exact_mod_cast hn
    linarith
  refine ⟨?_, ?_, ?_, fun i j hij _ =>
    linspaceVal_lt_of_lt num_bins min_exp max_exp hn hme i j hij⟩
  · have hsl : (softmax l).length = num_bins := by
      simp [softmax, hlen]
    have hbl : (binsList num_bins min_exp max_exp).length = (softmax l).length := by
      simp [binsList, hsl]
    rw [logits_to_value, sum_zipWith_eq_finsetSum _ _ _ hbl, hsl,
      softmaxExpectation.eq_def]
    refine Finset.sum_congr rfl ?_
    intro i hi
    rw [Finset.mem_range] at hi
    rw [binsList, getD_ofFn_of_lt _ _ _ hi, softmax,
      getD_map_of_lt _ _ _ (by rw [hlen]; exact hi),
      sum_map_eq_finsetSum, hlen]
  · simp [linspaceVal]
  · rw [linspaceVal, Nat.cast_sub (by omega : 1 ≤ num_bins), Nat.cast_one]
    field_simp

/-- Witness for C6 at the concrete logits `[0, 0]` with 2 bins and exponents
from 1 to 11. -/
theorem C6_logits_to_value_expectation_witness :
    logits_to_value [0, 0] 2 1 11 = softmaxExpectation [0, 0] 2 1 11 ∧
    linspaceVal 2 1 11 0 = 1 ∧
    linspaceVal 2 1 11 (2 - 1) = 11 ∧
    (∀ i j, i < j → j < 2 → linspaceVal 2 1 11 i < linspaceVal 2 1 11 j) :=
  C6_logits_to_value_expectation [0, 0] 2 1 11 rfl (by norm_num) (by norm_num)

lemma logb_binVal (n : ℕ) (me mx : ℝ) (i : ℕ) :
    Real.logb 2 (binVal n me mx i) = linspaceVal n me mx i :=
  Real.logb_rpow (by norm_num) (by norm_num)

lemma twohotCount_binVal (n : ℕ) (me mx : ℝ) (i : ℕ) (hn : 2 ≤ n)
    (hme : me < mx) (hi : i < n) :
    twohotCount (binVal n me mx i) n me mx = i := by
  unfold twohotCount
  simp only [logb_binVal]
  have hset :
      (@Finset.filter ℕ
        (fun j => linspaceVal n me mx j < linspaceVal n me mx i)
        (Classical.decPred _) (Finset.range n)) = Finset.range i := by
    ext j
    simp only [Finset.mem_filter, Finset.mem_range]
    constructor
    · rintro ⟨hjn, hjlt⟩
      by_contra hji
      push_neg at hji
      rcases eq_or_lt_of_le hji with heq | hlt
      · rw [heq] at hjlt
        exact lt_irrefl _ hjlt
      · exact absurd (linspaceVal_lt_of_lt n me mx hn hme i j hlt)
          (by linarith)
    · intro hji
      exact ⟨by omega, linspaceVal_lt_of_lt n me mx hn hme j i hji⟩
  rw [hset, Finset.card_range]

/-- Claim C1: for every target `v > 0`, the two-hot target built by
`twohot_exp_loss` is exactly the vector of length `num_bins` holding
`weight_lower = 1 - weight_upper` at index `k`, `weight_upper =
(v - bins[k]) / (bins[k+1] - bins[k])` at index `k + 1`, and zero at every
other index, where `k` is the count of bin exponents strictly below
`log2 v` clamped to `[0, num_bins - 2]`, `bins[i] = 2^exponents[i]`, and the
exponents are evenly spaced from `min_exp` to `max_exp`. -/
theorem C1_twohot_encoding (v : ℝ) (num_bins : ℕ) (min_exp max_exp : ℝ)
    (hv : 0 < v) (hn : 2 ≤ num_bins) :
    twohot v num_bins min_exp max_exp = twohotSpecVec v num_bins min_exp max_exp := by
  have hk2 : kIdx v num_bins min_exp max_exp ≤ num_bins - 2 := min_le_right _ _
  have hk1 : kIdx v num_bins min_exp max_exp + 1 < num_bins := by omega
  have hk0 : kIdx v num_bins min_exp max_exp < num_bins := by omega
  apply List.ext_getElem
  · simp [twohot, twohotSpecVec]
  · intro i h1 h2
    have hi : i < num_bins := by simpa [twohot] using h1
    simp only [twohot, twohotSpecVec, List.getElem_set, List.getElem_ofFn,
      List.getElem_replicate]
    split_ifs <;> first | rfl | omega

/-- Witness for C1 at the concrete target 4 with the default configuration
`num_bins = 41`, `min_exp = 1`, `max_exp = 11`. -/
theorem C1_twohot_encoding_witness :
    twohot 4 41 1 11 = twohotSpecVec 4 41 1 11 :=
  C1_twohot_encoding 4 41 1 11 (by norm_num) (by norm_num)

/-- Claim C7: when the target value equals a bin value `bins[i]` exactly (for
an index with a valid upper neighbour, `i + 1 ≤ num_bins - 1`, and strictly
ascending bins, `min_exp < max_exp`), the clamped index `k` equals `i`, the
interpolation gives `weight_lower = 1` and `weight_upper = 0`, and the
two-hot target holds 1 at index `i` and 0 at the adjacent index `i + 1`. -/
theorem C7_twohot_exact_bin (n : ℕ) (me mx : ℝ) (i : ℕ) (hn : 2 ≤ n)
    (hme : me < mx) (hi : i + 2 ≤ n) :
    kIdx (binVal n me mx i) n me mx = i ∧
    weight_lower (binVal n me mx i) n me mx = 1 ∧
    weight_upper (binVal n me mx i) n me mx = 0 ∧
    (twohot (binVal n me mx i) n me mx).getD i 0 = 1 ∧
    (twohot (binVal n me mx i) n me mx).getD (i + 1) 0 = 0 := by
  have hk : kIdx (binVal n me mx i) n me mx = i := by
    unfold kIdx
    rw [twohotCount_binVal n me mx i hn hme (by omega)]
    exact min_eq_left (by omega)
  have hwu : weight_upper (binVal n me mx i) n me mx = 0 := by
    unfold weight_upper
    rw [hk, sub_self, zero_div]
  have hwl : weight_lower (binVal n me mx i) n me mx = 1 := by
    unfold weight_lower
    rw [hwu]
    norm_num
  refine ⟨hk, hwl, hwu, ?_, ?_⟩
  · unfold twohot
    rw [hk, hwl, hwu]
    rw [List.getD_eq_getElem _ _ (by simp; omega)]
    simp [List.getElem_set]
  · unfold twohot
    rw [hk, hwl, hwu]
    rw [List.getD_eq_getElem _ _ (by simp; omega)]
    simp [List.getElem_set]

/-- Witness for C7 at the concrete configuration `num_bins = 41`,
`min_exp = 1`, `max_exp = 11`, bin index 0. -/
theorem C7_twohot_exact_bin_witness :
    kIdx (binVal 41 1 11 0) 41 1 11 = 0 ∧
    weight_lower (binVal 41 1 11 0) 41 1 11 = 1 ∧
    weight_upper (binVal 41 1 11 0) 41 1 11 = 0 ∧
    (twohot (binVal 41 1 11 0) 41 1 11).getD 0 0 = 1 ∧
    (twohot (binVal 41 1 11 0) 41 1 11).getD 1 0 = 0 :=
  C7_twohot_exact_bin 41 1 11 0 (by norm_num) (by norm_num) (by norm_num)

/-- Counterexample for claim C7 as universally stated: at the top bin index
`i = num_bins - 1` (index 40 of the default 41-bin configuration), encoding
`v = bins[40]` clamps `k` to 39 and yields `weight_lower = 0` (not 1) with
`weight_upper = 1`: the unit mass reaches index 40 through `weight_upper`. -/
theorem C7_counterexample_top_bin :
    weight_lower (binVal 41 1 11 40) 41 1 11 = 0 ∧
    weight_upper (binVal 41 1 11 40) 41 1 11 = 1 ∧
    kIdx (binVal 41 1 11 40) 41 1 11 = 39 := by
  have hk : kIdx (binVal 41 1 11 40) 41 1 11 = 39 := by
    unfold kIdx
    rw [twohotCount_binVal 41 1 11 40 (by norm_num) (by norm_num) (by norm_num)]
    omega
  have hlt : linspaceVal 41 1 11 39 < linspaceVal 41 1 11 40 :=
    linspaceVal_lt_of_lt 41 1 11 (by norm_num) (by norm_num) 39 40 (by norm_num)
  have hbin : binVal 41 1 11 39 < binVal 41 1 11 40 := by
    unfold binVal
    exact (Real.rpow_lt_rpow_left_iff one_lt_two).mpr hlt
  have h40 : (39 : ℕ) + 1 = 40 := rfl
  have hwu : weight_upper (binVal 41 1 11 40) 41 1 11 = 1 := by
    unfold weight_upper
    rw [hk, h40]
    exact div_self (sub_ne_zero.mpr (ne_of_gt hbin))
  refine ⟨?_, hwu, hk⟩
  unfold weight_lower
  rw [hwu]
  norm_num
